import Mathlib

/-!
Shallow embedding of the QP/C publish-subscribe core (`qf_ps.c`, QP 5.6.2):
the subscription registry (`QF_subscrList_`), its mutators
(`QActive_subscribe`, `QActive_unsubscribe`, `QActive_unsubscribeAll`),
initialization (`QF_psInit`) and the multicast dispatcher (`QF_publish_`).

Machine bytes (`uint8_t`) are modelled as `Nat` with an explicit `< 256`
well-formedness invariant; fatal assertions (`Q_REQUIRE_ID` / `Q_ASSERT_ID`)
are modelled as `Except Nat _` where the error value is the assertion id.
External collaborator calls made by `QF_publish_` (reference-count increment,
scheduler lock/unlock, posting to an active object queue, the garbage
collector) are recorded as an explicit action trace.
-/

namespace QP

/-- Static configuration of the framework: `QF_MAX_ACTIVE` (compile-time),
`QF_maxSignal_` (set by `QF_psInit`) and `Q_USER_SIG` (first user signal). -/
structure QPConfig where
  maxActive : Nat
  maxSignal : Nat
  userSignalBase : Nat
deriving DecidableEq, Repr

/-- Configuration well-formedness: QP requires `1 ≤ QF_MAX_ACTIVE ≤ 64`
(enforced by a preprocessor check in the framework headers). -/
def QPConfig.WF (cfg : QPConfig) : Prop :=
  0 < cfg.maxActive ∧ cfg.maxActive ≤ 64

instance (cfg : QPConfig) : Decidable cfg.WF := by
  unfold QPConfig.WF; infer_instance

/-- Lookup `QF_div8Lkup[p] = (p - 1) / 8`: byte index of priority `p`'s bit.
The lookup-table source (`qf_act.c`) is outside this repository slice;
modelled from the spec's bit-index-to-priority mapping (one bit per
priority, byte-granularity groups). -/
def QF_div8Lkup (p : Nat) : Nat := (p - 1) / 8

/-- Lookup `QF_pwr2Lkup[p] = 1 << ((p - 1) % 8)`: single-bit mask of priority `p`
within its byte.  Modelled from the spec (see `QF_div8Lkup`). -/
def QF_pwr2Lkup (p : Nat) : Nat := 2 ^ ((p - 1) % 8)

/-- Lookup `QF_invPwr2Lkup[p] = (uint8_t)~(1 << ((p - 1) % 8))`: byte-complement of
`QF_pwr2Lkup`.  Modelled from the spec (see `QF_div8Lkup`). -/
def QF_invPwr2Lkup (p : Nat) : Nat := 255 - 2 ^ ((p - 1) % 8)

/-- Lookup `QF_LOG2(x) = QF_log2Lkup[x]`: for a non-zero byte, one plus the index of
its most significant set bit (so the value is the bit *number* in 1..8).
Modelled from the spec's extract-highest traversal primitive; the table
itself lives outside this repository slice. -/
def QF_log2Lkup (x : Nat) : Nat :=
  if 128 ≤ x then 8
  else if 64 ≤ x then 7
  else if 32 ≤ x then 6
  else if 16 ≤ x then 5
  else if 8 ≤ x then 4
  else if 4 ≤ x then 3
  else if 2 ≤ x then 2
  else if 1 ≤ x then 1
  else 0

/-- One `QSubscrList`: the `bits[]` array of bytes for one signal. -/
abbrev SubscrList := List Nat

/-- The subscription registry `QF_subscrList_`, indexed by signal. -/
abbrev Registry := List SubscrList

/-- Size `Q_DIM(QF_subscrList_[0].bits) = (QF_MAX_ACTIVE - 1) / 8 + 1`. -/
def subscrListSize (cfg : QPConfig) : Nat := (cfg.maxActive - 1) / 8 + 1

/-- The bit of priority `p` in one subscriber list:
`(bits[QF_div8Lkup[p]] & QF_pwr2Lkup[p]) != 0`, expressed via `Nat.testBit`. -/
def testBitP (l : SubscrList) (p : Nat) : Bool :=
  (l.getD (QF_div8Lkup p) 0).testBit ((p - 1) % 8)

/-- Registry well-formedness: one entry per signal, each entry has the
configured number of bytes, and every byte is a `uint8_t` value. -/
def RegWF (cfg : QPConfig) (reg : Registry) : Prop :=
  reg.length = cfg.maxSignal ∧
  ∀ l ∈ reg, l.length = subscrListSize cfg ∧ ∀ b ∈ l, b < 256

instance (cfg : QPConfig) (reg : Registry) : Decidable (RegWF cfg reg) := by
  unfold RegWF; infer_instance

/-- Init `QF_psInit`: records `maxSignal` and zeroes the subscriber lists. -/
def QF_psInit (cfg : QPConfig) : Registry :=
  List.replicate cfg.maxSignal (List.replicate (subscrListSize cfg) 0)

/-- The active-object directory `QF_active_[]`: priority to registered
active-object handle (`none` = null entry).  External collaborator,
read-only here. -/
abbrev Directory := Nat → Option Nat

/-- Subscribe `QActive_subscribe(me, sig)`: after `Q_REQUIRE_ID(300, ...)` checks the
signal range, the priority range and directory registration, sets the
priority bit `QF_subscrList_[sig].bits[i] |= QF_pwr2Lkup[p]`. -/
def QActive_subscribe (cfg : QPConfig) (dir : Directory) (reg : Registry)
    (me p sig : Nat) : Except Nat Registry :=
  let i := QF_div8Lkup p
  if cfg.userSignalBase ≤ sig ∧ sig < cfg.maxSignal ∧
     0 < p ∧ p ≤ cfg.maxActive ∧ dir p = some me then
    let l := reg.getD sig []
    .ok (reg.set sig (l.set i (l.getD i 0 ||| QF_pwr2Lkup p)))
  else .error 300

/-- Unsubscribe `QActive_unsubscribe(me, sig)`: after `Q_REQUIRE_ID(400, ...)` (same
checks as subscribe), clears the priority bit
`QF_subscrList_[sig].bits[i] &= QF_invPwr2Lkup[p]`. -/
def QActive_unsubscribe (cfg : QPConfig) (dir : Directory) (reg : Registry)
    (me p sig : Nat) : Except Nat Registry :=
  let i := QF_div8Lkup p
  if cfg.userSignalBase ≤ sig ∧ sig < cfg.maxSignal ∧
     0 < p ∧ p ≤ cfg.maxActive ∧ dir p = some me then
    let l := reg.getD sig []
    .ok (reg.set sig (l.set i (l.getD i 0 &&& QF_invPwr2Lkup p)))
  else .error 400

/-- One iteration of the `QActive_unsubscribeAll` loop body for signal
`sig`: if this active object's bit is set, clear it, else leave the
entry alone. -/
def unsubAllClear (p : Nat) (reg : Registry) (sig : Nat) : Registry :=
  let i := QF_div8Lkup p
  let l := reg.getD sig []
  if l.getD i 0 &&& QF_pwr2Lkup p ≠ 0 then
    reg.set sig (l.set i (l.getD i 0 &&& QF_invPwr2Lkup p))
  else reg

/-- Unsubscribe-all `QActive_unsubscribeAll(me)`: after `Q_REQUIRE_ID(500, ...)` checks the
priority range and directory registration, iterates
`for (sig = Q_USER_SIG; sig < QF_maxSignal_; ++sig)` clearing this
priority's bit wherever set. -/
def QActive_unsubscribeAll (cfg : QPConfig) (dir : Directory) (reg : Registry)
    (me p : Nat) : Except Nat Registry :=
  if 0 < p ∧ p ≤ cfg.maxActive ∧ dir p = some me then
    .ok ((List.range' cfg.userSignalBase (cfg.maxSignal - cfg.userSignalBase)).foldl
          (unsubAllClear p) reg)
  else .error 500

/-- A published event: `QEvt` with its signal, pool id (`0` = not
pool-managed) and reference counter. -/
structure QEvt where
  sig : Nat
  poolId : Nat
  refCtr : Nat
deriving DecidableEq, Repr

/-- One observable collaborator call made by `QF_publish_`. -/
inductive PubAction where
  /-- Call `QF_EVT_REF_CTR_INC_(e)` under the critical section. -/
  | incRef
  /-- Call `QF_SCHED_LOCK_(&lockStat, ceil)`: raise the scheduler ceiling. -/
  | schedLock (ceil : Nat)
  /-- Call `QACTIVE_POST(QF_active_[prio], e, sender)`. -/
  | post (prio : Nat)
  /-- Call `QF_SCHED_UNLOCK_(&lockStat)`. -/
  | schedUnlock
  /-- Call `QF_gc(e)`: the garbage-collector step. -/
  | gc
deriving DecidableEq, Repr

/-- Extraction of bit numbers from one byte, most significant first:
`while (tmp != 0) { p = QF_LOG2(tmp); tmp &= QF_invPwr2Lkup[p]; ... }`.
The fuel (8 suffices for a byte) only bounds the recursion. -/
def bytePrios : Nat → Nat → List Nat
  | _, 0 => []
  | 0, _ => []
  | fuel + 1, tmp =>
    let p := QF_log2Lkup tmp
    p :: bytePrios fuel (tmp &&& QF_invPwr2Lkup p)

/-- The order in which `QF_publish_` extracts subscriber priorities from the
subscriber list of the published signal: bytes are visited from the highest
index down (`do { --i; ... } while (i != 0)`), and within each byte bits
from the most significant down, the bit number being converted to a
priority by `p += i << 3`.  (For `QF_MAX_ACTIVE <= 8` the source has a
specialized single-byte loop, which is the `n = 1` case of this one.) -/
def subscrPriosAux (bytes : SubscrList) : Nat → List Nat
  | 0 => []
  | i + 1 =>
    (bytePrios 8 (bytes.getD i 0)).map (fun b => b + 8 * i) ++ subscrPriosAux bytes i

/-- All subscriber priorities of one subscriber list, highest first. -/
def subscrPrios (cfg : QPConfig) (bytes : SubscrList) : List Nat :=
  subscrPriosAux bytes (subscrListSize cfg)

/-- The dispatcher's traversal loop: threads `lockStat.lockPrio`
(initially the `0xFF` sentinel), emits `schedLock` at the first extracted
priority, checks `Q_ASSERT_ID(210, QF_active_[p] != 0)` and emits a
`post` for every extracted priority. -/
def pubLoop (dir : Directory) (lockPrio : Nat) :
    List Nat → Except Nat (List PubAction × Nat)
  | [] => .ok ([], lockPrio)
  | p :: rest =>
    let lk := if lockPrio = 255 then ([PubAction.schedLock p], p)
              else ([], lockPrio)
    if (dir p).isSome then
      match pubLoop dir lk.2 rest with
      | .ok (acts, lp) => .ok (lk.1 ++ PubAction.post p :: acts, lp)
      | .error n => .error n
    else .error 210

/-- Publish `QF_publish_(e)`: checks `Q_REQUIRE_ID(200, e->sig < QF_maxSignal_)`;
increments the reference counter when the event is pool-managed; traverses
the subscriber list highest-priority-first, locking the scheduler at the
first subscriber; unlocks when `lockStat.lockPrio <= QF_MAX_ACTIVE`;
finally calls `QF_gc(e)`.  Returns the trace of collaborator calls and the
event with the counter as updated by this function itself. -/
def QF_publish_ (cfg : QPConfig) (dir : Directory) (reg : Registry)
    (e : QEvt) : Except Nat (List PubAction × QEvt) :=
  if e.sig < cfg.maxSignal then
    let incA : List PubAction := if e.poolId ≠ 0 then [.incRef] else []
    let e1 : QEvt := if e.poolId ≠ 0 then ⟨e.sig, e.poolId, e.refCtr + 1⟩ else e
    match pubLoop dir 255 (subscrPrios cfg (reg.getD e.sig [])) with
    | .ok (acts, lp) =>
      .ok (incA ++ acts ++
           (if lp ≤ cfg.maxActive then [PubAction.schedUnlock] else []) ++
           [PubAction.gc], e1)
    | .error n => .error n
  else .error 200

/-- Modelled from the spec: the reclamation step `QF_gc(e)` furnished by the
event-pool collaborator (its source is outside this repository slice) —
reclaim decrements the count and, if it reaches zero, returns the block to
its owning pool; a no-op when `poolId == 0`.  Returns the event and whether
the block was reclaimed. -/
def reclaim (e : QEvt) : QEvt × Bool :=
  if e.poolId ≠ 0 then
    let c := e.refCtr - 1
    (⟨e.sig, e.poolId, c⟩, decide (c = 0))
  else (e, false)

/-- A whole publish call including the effect of the final `QF_gc` step on
the reference counter: trace, final event state, and whether the event was
reclaimed. -/
def publishRun (cfg : QPConfig) (dir : Directory) (reg : Registry)
    (e : QEvt) : Except Nat (List PubAction × QEvt × Bool) :=
  match QF_publish_ cfg dir reg e with
  | .ok (acts, e1) => .ok (acts, reclaim e1)
  | .error n => .error n

/-- Registry states reachable from `QF_psInit` by mutator calls that pass
their preconditions. -/
inductive Reachable (cfg : QPConfig) (dir : Directory) : Registry → Prop where
  | init : Reachable cfg dir (QF_psInit cfg)
  | subscribe {reg reg' me p sig} : Reachable cfg dir reg →
      QActive_subscribe cfg dir reg me p sig = .ok reg' → Reachable cfg dir reg'
  | unsubscribe {reg reg' me p sig} : Reachable cfg dir reg →
      QActive_unsubscribe cfg dir reg me p sig = .ok reg' → Reachable cfg dir reg'
  | unsubscribeAll {reg reg' me p} : Reachable cfg dir reg →
      QActive_unsubscribeAll cfg dir reg me p = .ok reg' → Reachable cfg dir reg'

/-- The invariant of the registry: every bit at a priority position above `maxActive`
is clear, in every registry entry. -/
def highClear (cfg : QPConfig) (reg : Registry) : Prop :=
  ∀ s q, cfg.maxActive < q → testBitP (reg.getD s []) q = false

/-- Concrete configuration used by the witnesses: `QF_MAX_ACTIVE = 8`,
`QF_maxSignal_ = 8`, `Q_USER_SIG = 4`. -/
def cfg0 : QPConfig := ⟨8, 8, 4⟩

/-- Concrete directory for the witnesses: each priority registered with an
active object whose handle is its own priority. -/
def dir0 : Directory := fun q => some q


/-! ### List and bit-level helper lemmas -/

lemma getD_set_self {α : Type} {l : List α} {i : Nat} {a d : α} (h : i < l.length) :
    (l.set i a).getD i d = a := by
  simp [List.getD_eq_getElem?_getD, List.getElem?_set_self h]

lemma getD_set_ne {α : Type} {l : List α} {i j : Nat} {a d : α} (h : i ≠ j) :
    (l.set i a).getD j d = l.getD j d := by
  simp [List.getD_eq_getElem?_getD, List.getElem?_set_ne h]

lemma getD_ge {α : Type} {l : List α} {i : Nat} {d : α} (h : l.length ≤ i) :
    l.getD i d = d := by
  simp [List.getD_eq_getElem?_getD, List.getElem?_eq_none h]

lemma getD_lt_256 {l : List Nat} (hl : ∀ b ∈ l, b < 256) (i : Nat) :
    l.getD i 0 < 256 := by
  by_cases h : i < l.length
  · have he : l.getD i 0 = l[i] := by
      simp [List.getD_eq_getElem?_getD, List.getElem?_eq_getElem h]
    rw [he]
    exact hl _ (List.getElem_mem h)
  · rw [getD_ge (Nat.le_of_not_lt h)]; omega

lemma testBit_ge_8 {x c : Nat} (hx : x < 256) (hc : 8 ≤ c) : x.testBit c = false := by
  apply Nat.testBit_lt_two_pow
  have : (256 : Nat) ≤ 2 ^ c := by
    calc (256 : Nat) = 2 ^ 8 := by norm_num
    _ ≤ 2 ^ c := Nat.pow_le_pow_right (by norm_num) hc
  omega

lemma mask_testBit_aux : ∀ b c : Fin 8,
    (255 - 2 ^ (b : Nat)).testBit (c : Nat) = !decide ((c : Nat) = (b : Nat)) := by
  decide

lemma mask_testBit {b c : Nat} (hb : b < 8) (hc : c < 8) :
    (255 - 2 ^ b).testBit c = !decide (c = b) :=
  mask_testBit_aux ⟨b, hb⟩ ⟨c, hc⟩

lemma and_two_pow_ne_zero {x b : Nat} : x &&& 2 ^ b ≠ 0 ↔ x.testBit b = true := by
  constructor
  · intro h
    by_contra hf
    apply h
    apply Nat.eq_of_testBit_eq
    intro c
    rw [Nat.testBit_and, Nat.zero_testBit]
    by_cases hcb : b = c
    · subst hcb
      simp [Bool.not_eq_true] at hf
      simp [hf]
    · simp [Nat.testBit_two_pow_of_ne hcb]
  · intro h h0
    have hb := congrArg (fun n => n.testBit b) h0
    simp [Nat.testBit_and, h, Nat.testBit_two_pow_self, Nat.zero_testBit] at hb

/-! ### Single-entry bit lemmas for the mutators -/

lemma div8_lt_of_le {cfg : QPConfig} {p : Nat} (h : p ≤ cfg.maxActive) :
    QF_div8Lkup p < subscrListSize cfg := by
  unfold QF_div8Lkup subscrListSize
  have : (p - 1) / 8 ≤ (cfg.maxActive - 1) / 8 := Nat.div_le_div_right (by omega)
  omega

lemma div8_mod_inj {p q : Nat} (h0p : 0 < p) (h0q : 0 < q)
    (hd : QF_div8Lkup q = QF_div8Lkup p) (hm : (q - 1) % 8 = (p - 1) % 8) : q = p := by
  unfold QF_div8Lkup at hd
  have hp := Nat.div_add_mod (p - 1) 8
  have hq := Nat.div_add_mod (q - 1) 8
  omega

/-- Subscribing priority `p` does not change the bit of any other priority. -/
lemma testBitP_set_or_ne {l : SubscrList} {p q : Nat}
    (h0p : 0 < p) (h0q : 0 < q) (hqp : q ≠ p) :
    testBitP (l.set (QF_div8Lkup p)
      (l.getD (QF_div8Lkup p) 0 ||| QF_pwr2Lkup p)) q = testBitP l q := by
  by_cases hlen : QF_div8Lkup p < l.length
  · by_cases hd : QF_div8Lkup q = QF_div8Lkup p
    · have hm : (q - 1) % 8 ≠ (p - 1) % 8 := fun hm => hqp (div8_mod_inj h0p h0q hd hm)
      unfold testBitP
      rw [hd, getD_set_self hlen, Nat.testBit_or, QF_pwr2Lkup,
          Nat.testBit_two_pow_of_ne (fun h => hm h.symm)]
      simp
    · unfold testBitP
      rw [getD_set_ne (fun h => hd h.symm)]
  · rw [List.set_eq_of_length_le (Nat.le_of_not_lt hlen)]

/-- Subscribing priority `p` sets its own bit (entry byte in range). -/
lemma testBitP_set_or_self {l : SubscrList} {p : Nat}
    (hlen : QF_div8Lkup p < l.length) :
    testBitP (l.set (QF_div8Lkup p)
      (l.getD (QF_div8Lkup p) 0 ||| QF_pwr2Lkup p)) p = true := by
  unfold testBitP
  rw [getD_set_self hlen, Nat.testBit_or, QF_pwr2Lkup, Nat.testBit_two_pow_self]
  simp

/-- Clearing priority `p`'s bit does not change the bit of any other priority. -/
lemma testBitP_set_and_ne {l : SubscrList} {p q : Nat}
    (h0p : 0 < p) (h0q : 0 < q) (hqp : q ≠ p) :
    testBitP (l.set (QF_div8Lkup p)
      (l.getD (QF_div8Lkup p) 0 &&& QF_invPwr2Lkup p)) q = testBitP l q := by
  by_cases hlen : QF_div8Lkup p < l.length
  · by_cases hd : QF_div8Lkup q = QF_div8Lkup p
    · have hm : (q - 1) % 8 ≠ (p - 1) % 8 := fun hm => hqp (div8_mod_inj h0p h0q hd hm)
      unfold testBitP
      rw [hd, getD_set_self hlen, Nat.testBit_and, QF_invPwr2Lkup,
          mask_testBit (Nat.mod_lt _ (by omega)) (Nat.mod_lt _ (by omega))]
      simp [hm]
    · unfold testBitP
      rw [getD_set_ne (fun h => hd h.symm)]
  · rw [List.set_eq_of_length_le (Nat.le_of_not_lt hlen)]

/-- Clearing priority `p`'s bit leaves that bit clear. -/
lemma testBitP_set_and_self {l : SubscrList} {p : Nat} :
    testBitP (l.set (QF_div8Lkup p)
      (l.getD (QF_div8Lkup p) 0 &&& QF_invPwr2Lkup p)) p = false := by
  by_cases hlen : QF_div8Lkup p < l.length
  · unfold testBitP
    rw [getD_set_self hlen, Nat.testBit_and, QF_invPwr2Lkup,
        mask_testBit (Nat.mod_lt _ (by omega)) (Nat.mod_lt _ (by omega))]
    simp
  · rw [List.set_eq_of_length_le (Nat.le_of_not_lt hlen)]
    unfold testBitP
    rw [getD_ge (by omega)]
    simp [Nat.zero_testBit]

/-! ### Traversal-order lemmas -/

set_option maxRecDepth 4000

lemma bytePrios_mem_aux : ∀ t : Fin 256, ∀ b : Fin 8,
    ((t : Nat).testBit (b : Nat) = true ↔ ((b : Nat) + 1) ∈ bytePrios 8 (t : Nat)) := by
  decide

lemma bytePrios_pairwise_aux :
    ∀ t : Fin 256, (bytePrios 8 (t : Nat)).Pairwise (fun a b => b < a) := by
  decide

lemma bytePrios_bounds_aux :
    ∀ t : Fin 256, ∀ x ∈ bytePrios 8 (t : Nat), 1 ≤ x ∧ x ≤ 8 := by
  decide

lemma bytePrios_mem {t b : Nat} (ht : t < 256) (hb : b < 8) :
    t.testBit b = true ↔ (b + 1) ∈ bytePrios 8 t :=
  bytePrios_mem_aux ⟨t, ht⟩ ⟨b, hb⟩

lemma bytePrios_pairwise {t : Nat} (ht : t < 256) :
    (bytePrios 8 t).Pairwise (fun a b => b < a) :=
  bytePrios_pairwise_aux ⟨t, ht⟩

lemma bytePrios_bounds {t : Nat} (ht : t < 256) :
    ∀ x ∈ bytePrios 8 t, 1 ≤ x ∧ x ≤ 8 :=
  bytePrios_bounds_aux ⟨t, ht⟩

lemma subscrPriosAux_mem {bytes : SubscrList} :
    ∀ {n p : Nat}, p ∈ subscrPriosAux bytes n ↔
      ∃ i, i < n ∧ ∃ b, b ∈ bytePrios 8 (bytes.getD i 0) ∧ p = b + 8 * i := by
  intro n
  induction n with
  | zero => simp [subscrPriosAux]
  | succ n ih =>
    intro p
    simp only [subscrPriosAux, List.mem_append, List.mem_map, ih]
    constructor
    · rintro (⟨b, hb, rfl⟩ | ⟨i, hi, b, hb, rfl⟩)
      · exact ⟨n, by omega, b, hb, rfl⟩
      · exact ⟨i, by omega, b, hb, rfl⟩
    · rintro ⟨i, hi, b, hb, rfl⟩
      by_cases hin : i = n
      · subst hin; exact Or.inl ⟨b, hb, rfl⟩
      · exact Or.inr ⟨i, by omega, b, hb, rfl⟩

lemma subscrPriosAux_bounds {bytes : SubscrList} (hb : ∀ x ∈ bytes, x < 256) :
    ∀ {n : Nat}, ∀ p ∈ subscrPriosAux bytes n, 1 ≤ p ∧ p ≤ 8 * n := by
  intro n p hp
  rcases subscrPriosAux_mem.mp hp with ⟨i, hi, b, hmem, rfl⟩
  have := bytePrios_bounds (getD_lt_256 hb i) b hmem
  omega

lemma subscrPriosAux_pairwise {bytes : SubscrList} (hb : ∀ x ∈ bytes, x < 256) :
    ∀ {n : Nat}, (subscrPriosAux bytes n).Pairwise (fun a b => b < a) := by
  intro n
  induction n with
  | zero => simp [subscrPriosAux]
  | succ n ih =>
    rw [subscrPriosAux, List.pairwise_append]
    refine ⟨?_, ih, ?_⟩
    · rw [List.pairwise_map]
      exact (bytePrios_pairwise (getD_lt_256 hb n)).imp (by omega)
    · intro a ha c hc
      rcases List.mem_map.mp ha with ⟨b, hbm, rfl⟩
      have h1 := bytePrios_bounds (getD_lt_256 hb n) b hbm
      have h2 := subscrPriosAux_bounds hb c hc
      omega

lemma subscrPrios_pairwise {cfg : QPConfig} {bytes : SubscrList}
    (hb : ∀ x ∈ bytes, x < 256) :
    (subscrPrios cfg bytes).Pairwise (fun a b => b < a) :=
  subscrPriosAux_pairwise hb

/-- A priority is extracted by the traversal iff its bit is set. -/
lemma subscrPrios_mem {cfg : QPConfig} {bytes : SubscrList} {p : Nat}
    (hlen : bytes.length = subscrListSize cfg)
    (hb : ∀ x ∈ bytes, x < 256) :
    p ∈ subscrPrios cfg bytes ↔ 0 < p ∧ testBitP bytes p = true := by
  unfold subscrPrios
  rw [subscrPriosAux_mem]
  constructor
  · rintro ⟨i, hi, b, hmem, rfl⟩
    have hbd := bytePrios_bounds (getD_lt_256 hb i) b hmem
    have hbit := (bytePrios_mem (getD_lt_256 hb i) (show b - 1 < 8 by omega)).mpr
      (by simpa [Nat.sub_add_cancel hbd.1] using hmem)
    refine ⟨by omega, ?_⟩
    unfold testBitP QF_div8Lkup
    have hdiv : (b + 8 * i - 1) / 8 = i := by omega
    have hmod : (b + 8 * i - 1) % 8 = b - 1 := by omega
    rw [hdiv, hmod]
    exact hbit
  · rintro ⟨hp0, hbit⟩
    unfold testBitP at hbit
    set i := QF_div8Lkup p with hidef
    have hne : bytes.getD i 0 ≠ 0 := by
      intro h0
      rw [h0, Nat.zero_testBit] at hbit
      exact Bool.false_ne_true hbit
    have hilt : i < bytes.length := by
      by_contra hge
      exact hne (getD_ge (Nat.le_of_not_lt hge))
    have hmod8 : (p - 1) % 8 < 8 := Nat.mod_lt _ (by omega)
    have hmem := (bytePrios_mem (getD_lt_256 hb i) hmod8).mp hbit
    refine ⟨i, by omega, (p - 1) % 8 + 1, hmem, ?_⟩
    have := Nat.div_add_mod (p - 1) 8
    unfold QF_div8Lkup at hidef
    omega

/-- In a strictly descending list, a larger member precedes a smaller one. -/
lemma pair_sublist {l : List Nat} {p q : Nat} (hl : l.Pairwise (fun a b => b < a))
    (hp : p ∈ l) (hq : q ∈ l) (hqp : q < p) : List.Sublist [p, q] l := by
  induction l with
  | nil => cases hp
  | cons a t ih =>
    rw [List.pairwise_cons] at hl
    rcases List.mem_cons.mp hp with rfl | hpt
    · rcases List.mem_cons.mp hq with heq | hqt
      · omega
      · exact List.Sublist.cons₂ _ (List.singleton_sublist.mpr hqt)
    · rcases List.mem_cons.mp hq with rfl | hqt
      · have := hl.1 p hpt; omega
      · exact List.Sublist.cons _ (ih hl.2 hpt hqt)

/-! ### Dispatcher-loop lemmas -/

/-- Once the lock sentinel is gone, the loop emits only posts and never
locks again. -/
lemma pubLoop_no_relock {dir : Directory} {lp : Nat} (hlp : lp ≠ 255) :
    ∀ {l : List Nat} {acts : List PubAction} {lp' : Nat},
      pubLoop dir lp l = .ok (acts, lp') →
      acts = l.map PubAction.post ∧ lp' = lp := by
  intro l
  induction l with
  | nil =>
    intro acts lp' h
    simp only [pubLoop] at h
    cases h
    exact ⟨rfl, rfl⟩
  | cons p rest ih =>
    intro acts lp' h
    simp only [pubLoop, if_neg hlp] at h
    by_cases hd : (dir p).isSome
    · rw [if_pos hd] at h
      cases hm : pubLoop dir lp rest with
      | ok r =>
        obtain ⟨acts0, lp0⟩ := r
        rw [hm] at h
        cases h
        obtain ⟨ha, hl⟩ := ih hm
        subst ha hl
        exact ⟨rfl, rfl⟩
      | error n => rw [hm] at h; cases h
    · rw [if_neg hd] at h; cases h

/-- The first extracted priority raises the lock; afterwards the loop only
posts, so the whole multicast emits exactly one lock, at the head
priority, before every post. -/
lemma pubLoop_cons {dir : Directory} {p : Nat} {rest : List Nat}
    {acts : List PubAction} {lp' : Nat} (hp : p ≠ 255)
    (h : pubLoop dir 255 (p :: rest) = .ok (acts, lp')) :
    acts = PubAction.schedLock p :: (p :: rest).map PubAction.post ∧ lp' = p := by
  simp only [pubLoop, if_pos rfl, if_true, eq_self_iff_true] at h
  by_cases hd : (dir p).isSome
  · rw [if_pos hd] at h
    cases hm : pubLoop dir p rest with
    | ok r =>
      obtain ⟨acts0, lp0⟩ := r
      rw [hm] at h
      cases h
      obtain ⟨ha, hl⟩ := pubLoop_no_relock hp hm
      subst ha hl
      exact ⟨rfl, rfl⟩
    | error n => rw [hm] at h; cases h
  · rw [if_neg hd] at h; cases h

/-- The only assertion the traversal loop can raise is the null-directory
check `Q_ASSERT_ID(210/220, ...)`. -/
lemma pubLoop_error {dir : Directory} :
    ∀ {l : List Nat} {lp n : Nat}, pubLoop dir lp l = .error n → n = 210 := by
  intro l
  induction l with
  | nil => intro lp n h; simp [pubLoop] at h
  | cons p rest ih =>
    intro lp n h
    simp only [pubLoop] at h
    by_cases hd : (dir p).isSome
    · rw [if_pos hd] at h
      cases hm : pubLoop dir (if lp = 255 then (([PubAction.schedLock p], p) : List PubAction × Nat) else ([], lp)).2 rest with
      | ok r => obtain ⟨acts0, lp0⟩ := r; rw [hm] at h; cases h
      | error m =>
        rw [hm] at h
        cases h
        exact ih hm
    · rw [if_neg hd] at h
      cases h
      rfl

/-- Structure of a successful `QF_publish_` call. -/
lemma publish_ok_elim {cfg : QPConfig} {dir : Directory} {reg : Registry}
    {e : QEvt} {acts : List PubAction} {e1 : QEvt}
    (h : QF_publish_ cfg dir reg e = .ok (acts, e1)) :
    e.sig < cfg.maxSignal ∧
    e1 = (if e.poolId ≠ 0 then ⟨e.sig, e.poolId, e.refCtr + 1⟩ else e) ∧
    ∃ acts0 lp, pubLoop dir 255 (subscrPrios cfg (reg.getD e.sig [])) = .ok (acts0, lp) ∧
      acts = (if e.poolId ≠ 0 then [PubAction.incRef] else []) ++ acts0 ++
             (if lp ≤ cfg.maxActive then [PubAction.schedUnlock] else []) ++
             [PubAction.gc] := by
  unfold QF_publish_ at h
  by_cases hs : e.sig < cfg.maxSignal
  · rw [if_pos hs] at h
    refine ⟨hs, ?_⟩
    cases hm : pubLoop dir 255 (subscrPrios cfg (reg.getD e.sig [])) with
    | ok r =>
      obtain ⟨acts0, lp⟩ := r
      rw [hm] at h
      cases h
      exact ⟨rfl, acts0, lp, rfl, rfl⟩
    | error n => rw [hm] at h; cases h
  · rw [if_neg hs] at h; cases h

/-! ### Shared auxiliary facts for the claim theorems -/

lemma getD_mem {α : Type} {l : List α} {i : Nat} {d : α} (h : i < l.length) :
    l.getD i d ∈ l := by
  have he : l.getD i d = l[i] := by
    simp [List.getD_eq_getElem?_getD, List.getElem?_eq_getElem h]
  rw [he]
  exact List.getElem_mem h

/-- A subscriber list entirely out of bits above position 8 is clear at
every priority whose byte index is past the end. -/
lemma testBitP_short {l : SubscrList} {q : Nat} (h : l.length ≤ QF_div8Lkup q) :
    testBitP l q = false := by
  unfold testBitP
  rw [getD_ge h]
  exact Nat.zero_testBit _

lemma testBitP_replicate_zero (n q : Nat) : testBitP (List.replicate n 0) q = false := by
  unfold testBitP
  by_cases h : QF_div8Lkup q < n
  · have hlt : QF_div8Lkup q < (List.replicate n (0 : Nat)).length := by simpa using h
    have he : (List.replicate n (0 : Nat)).getD (QF_div8Lkup q) 0 =
        (List.replicate n (0 : Nat))[QF_div8Lkup q] := by
      simp [List.getD_eq_getElem?_getD, List.getElem?_eq_getElem hlt]
    rw [he, List.getElem_replicate]
    exact Nat.zero_testBit _
  · rw [getD_ge (by simpa using Nat.le_of_not_lt h)]
    exact Nat.zero_testBit _

/-! ### Claim theorems -/

/-- C5: publishing an event whose signal is out of range (`sig >= maxSignal`)
halts at the precondition assertion `Q_REQUIRE_ID(200, ...)` — for any
registry and directory, with no other effect — while an in-range signal
never trips that assertion. -/
theorem C5_out_of_range_rejection (cfg : QPConfig) (dir : Directory)
    (reg : Registry) (e : QEvt) :
    (cfg.maxSignal ≤ e.sig → QF_publish_ cfg dir reg e = .error 200) ∧
    (e.sig < cfg.maxSignal → QF_publish_ cfg dir reg e ≠ .error 200) := by
  constructor
  · intro h
    unfold QF_publish_
    rw [if_neg (by omega)]
  · intro h hcontra
    unfold QF_publish_ at hcontra
    rw [if_pos h] at hcontra
    cases hm : pubLoop dir 255 (subscrPrios cfg (reg.getD e.sig [])) with
    | ok r =>
      obtain ⟨a0, lp⟩ := r
      rw [hm] at hcontra
      cases hcontra
    | error n =>
      rw [hm] at hcontra
      cases hcontra
      have := pubLoop_error hm
      omega

theorem C5_witness :
    QF_publish_ cfg0 dir0 (QF_psInit cfg0) ⟨8, 0, 0⟩ = .error 200 ∧
    QF_publish_ cfg0 dir0 (QF_psInit cfg0) ⟨4, 0, 0⟩ ≠ .error 200 :=
  ⟨(C5_out_of_range_rejection cfg0 dir0 (QF_psInit cfg0) ⟨8, 0, 0⟩).1 (by decide),
   (C5_out_of_range_rejection cfg0 dir0 (QF_psInit cfg0) ⟨4, 0, 0⟩).2 (by decide)⟩

/-- C3: the code of `QActive_unsubscribe` does *not* assert when the signal
was never subscribed — the call returns normally and leaves the registry
unchanged (here: active object of priority 1, in-range signal 4, bit clear
in the zeroed registry), contradicting the claimed (and documented) fatal
contract violation. -/
theorem C3_never_subscribed_silent_noop :
    testBitP ((QF_psInit cfg0).getD 4 []) 1 = false ∧
    QActive_unsubscribe cfg0 dir0 (QF_psInit cfg0) 1 1 4 = .ok (QF_psInit cfg0) := by
  constructor
  · exact testBitP_replicate_zero 1 1
  · rfl

/-- C6: subscribing is idempotent — a second `QActive_subscribe(A, S)` on the
registry produced by the first finds the bit already set and leaves the
registry in exactly the same state. -/
theorem C6_subscribe_idempotent {cfg : QPConfig} {dir : Directory}
    {reg reg' : Registry} {me p sig : Nat} (hwf : RegWF cfg reg)
    (h : QActive_subscribe cfg dir reg me p sig = .ok reg') :
    QActive_subscribe cfg dir reg' me p sig = .ok reg' := by
  simp only [QActive_subscribe] at h ⊢
  by_cases hc : cfg.userSignalBase ≤ sig ∧ sig < cfg.maxSignal ∧
      0 < p ∧ p ≤ cfg.maxActive ∧ dir p = some me
  · rw [if_pos hc] at h ⊢
    have hsig : sig < reg.length := by rw [hwf.1]; exact hc.2.1
    have hl : reg.getD sig [] ∈ reg := getD_mem hsig
    have hlen : (reg.getD sig []).length = subscrListSize cfg := (hwf.2 _ hl).1
    have hi : QF_div8Lkup p < (reg.getD sig []).length := by
      rw [hlen]; exact div8_lt_of_le hc.2.2.2.1
    cases h
    congr 1
    set l := reg.getD sig [] with hldef
    set x := l.getD (QF_div8Lkup p) 0 with hxdef
    set lnew := l.set (QF_div8Lkup p) (x ||| QF_pwr2Lkup p) with hlnew
    have h1 : (reg.set sig lnew).getD sig [] = lnew :=
      getD_set_self (by simpa using hsig)
    have h2 : lnew.getD (QF_div8Lkup p) 0 = x ||| QF_pwr2Lkup p := by
      rw [hlnew]
      exact getD_set_self hi
    rw [h1, h2, Nat.or_assoc, Nat.or_self, hlnew, List.set_set, List.set_set]
  · rw [if_neg hc] at h
    cases h

theorem C6_witness :
    QActive_subscribe cfg0 dir0
      ((QF_psInit cfg0).set 4 [4]) 3 3 4 = .ok ((QF_psInit cfg0).set 4 [4]) := by
  have hwf : RegWF cfg0 (QF_psInit cfg0) := by decide
  have h : QActive_subscribe cfg0 dir0 (QF_psInit cfg0) 3 3 4 =
      .ok ((QF_psInit cfg0).set 4 [4]) := by rfl
  exact C6_subscribe_idempotent hwf h

/-- C7: `subscribe(A, S)` then `unsubscribe(A, S)` leaves (A, S)'s bit clear,
preserves the registry size, leaves entries of every other signal untouched,
and leaves the bit of every other priority in S's entry unchanged. -/
theorem C7_subscribe_unsubscribe_inverse {cfg : QPConfig} {dir : Directory}
    {reg reg1 reg2 : Registry} {me p sig : Nat} (hwf : RegWF cfg reg)
    (h1 : QActive_subscribe cfg dir reg me p sig = .ok reg1)
    (h2 : QActive_unsubscribe cfg dir reg1 me p sig = .ok reg2) :
    testBitP (reg2.getD sig []) p = false ∧
    reg2.length = reg.length ∧
    (∀ s, s ≠ sig → reg2.getD s [] = reg.getD s []) ∧
    (∀ q, 0 < q → q ≠ p → testBitP (reg2.getD sig []) q = testBitP (reg.getD sig []) q) := by
  unfold QActive_subscribe at h1
  unfold QActive_unsubscribe at h2
  by_cases hc : cfg.userSignalBase ≤ sig ∧ sig < cfg.maxSignal ∧
      0 < p ∧ p ≤ cfg.maxActive ∧ dir p = some me
  · rw [if_pos hc] at h1 h2
    have hsig : sig < reg.length := by rw [hwf.1]; exact hc.2.1
    cases h1
    cases h2
    set l := reg.getD sig [] with hldef
    set l1 := l.set (QF_div8Lkup p) (l.getD (QF_div8Lkup p) 0 ||| QF_pwr2Lkup p)
      with hl1def
    have hget1 : (reg.set sig l1).getD sig [] = l1 := getD_set_self (by simpa using hsig)
    rw [hget1]
    set l2 := l1.set (QF_div8Lkup p) (l1.getD (QF_div8Lkup p) 0 &&& QF_invPwr2Lkup p)
      with hl2def
    have hget2 : ((reg.set sig l1).set sig l2).getD sig [] = l2 := by
      rw [List.set_set]
      exact getD_set_self (by simpa using hsig)
    refine ⟨?_, by simp, ?_, ?_⟩
    · rw [hget2, hl2def]
      exact testBitP_set_and_self
    · intro s hs
      rw [getD_set_ne (fun h => hs h.symm), getD_set_ne (fun h => hs h.symm)]
    · intro q hq0 hqp
      rw [hget2, hl2def, testBitP_set_and_ne hc.2.2.1 hq0 hqp, hl1def,
          testBitP_set_or_ne hc.2.2.1 hq0 hqp]
  · rw [if_neg hc] at h1
    cases h1

theorem C7_witness :
    testBitP (([[0], [0], [0], [0], [1], [0], [0], [0]] : Registry).getD 4 []) 3 = false ∧
    ([[0], [0], [0], [0], [1], [0], [0], [0]] : Registry).getD 5 [] =
      ([[0], [0], [0], [0], [1], [0], [0], [0]] : Registry).getD 5 [] ∧
    testBitP (([[0], [0], [0], [0], [1], [0], [0], [0]] : Registry).getD 4 []) 1 =
      testBitP (([[0], [0], [0], [0], [1], [0], [0], [0]] : Registry).getD 4 []) 1 := by
  have hwf : RegWF cfg0 ([[0], [0], [0], [0], [1], [0], [0], [0]] : Registry) := by decide
  have h1 : QActive_subscribe cfg0 dir0
      ([[0], [0], [0], [0], [1], [0], [0], [0]] : Registry) 3 3 4 =
      .ok ([[0], [0], [0], [0], [5], [0], [0], [0]] : Registry) := by rfl
  have h2 : QActive_unsubscribe cfg0 dir0
      ([[0], [0], [0], [0], [5], [0], [0], [0]] : Registry) 3 3 4 =
      .ok ([[0], [0], [0], [0], [1], [0], [0], [0]] : Registry) := by rfl
  have h := C7_subscribe_unsubscribe_inverse hwf h1 h2
  exact ⟨h.1, h.2.2.1 5 (by decide), h.2.2.2 1 (by decide) (by decide)⟩

/-- Every action the traversal loop emits is a lock or a post. -/
lemma pubLoop_acts_shape {dir : Directory} :
    ∀ {l : List Nat} {lp : Nat} {acts : List PubAction} {lp' : Nat},
      pubLoop dir lp l = .ok (acts, lp') →
      ∀ a ∈ acts, (∃ c, a = PubAction.schedLock c) ∨ ∃ r, a = PubAction.post r := by
  intro l
  induction l with
  | nil =>
    intro lp acts lp' h a ha
    simp only [pubLoop] at h
    cases h
    cases ha
  | cons p rest ih =>
    intro lp acts lp' h a ha
    simp only [pubLoop] at h
    by_cases hd : (dir p).isSome
    · rw [if_pos hd] at h
      cases hm : pubLoop dir (if lp = 255 then (([PubAction.schedLock p], p) : List PubAction × Nat) else ([], lp)).2 rest with
      | ok r =>
        obtain ⟨acts0, lp0⟩ := r
        rw [hm] at h
        cases h
        rcases List.mem_append.mp ha with h1 | h2
        · by_cases hlp : lp = 255
          · rw [if_pos hlp] at h1
            simp only [List.mem_singleton] at h1
            exact Or.inl ⟨p, h1⟩
          · rw [if_neg hlp] at h1
            cases h1
        · rcases List.mem_cons.mp h2 with rfl | h3
          · exact Or.inr ⟨p, rfl⟩
          · exact ih hm a h3
      | error n => rw [hm] at h; cases h
    · rw [if_neg hd] at h; cases h

/-- C2 counterexample: publishing a pool-managed event with `refCtr = 1` and
zero subscribers leaves the counter at 1 and does *not* reclaim the event
(the publisher's own increment raises it to 2, the reclamation step only
brings it back to 1). -/
theorem C2_counterexample :
    publishRun cfg0 dir0 (QF_psInit cfg0) ⟨4, 1, 1⟩ =
      .ok ([PubAction.incRef, PubAction.gc], ⟨4, 1, 1⟩, false) := by rfl

/-- C2 (amended): one publish of a pool-managed event performs exactly one
reference-count increment and one garbage-collect call, for any number of
subscribers; and with zero subscribers and `refCtr = 0` on entry there are
zero enqueues, the counter returns to 0 and the event is reclaimed. -/
theorem C2_ref_count_conservation {cfg : QPConfig} {dir : Directory}
    {reg : Registry} {e : QEvt} {acts : List PubAction} {e1 : QEvt} {rcl : Bool}
    (hwf : RegWF cfg reg) (hpool : e.poolId ≠ 0)
    (hok : publishRun cfg dir reg e = .ok (acts, e1, rcl)) :
    acts.count PubAction.incRef = 1 ∧
    acts.count PubAction.gc = 1 ∧
    ((∀ q, testBitP (reg.getD e.sig []) q = false) → e.refCtr = 0 →
      acts.countP (fun a => match a with | PubAction.post _ => true | _ => false) = 0 ∧
      e1.refCtr = 0 ∧ rcl = true) := by
  unfold publishRun at hok
  cases hp : QF_publish_ cfg dir reg e with
  | error n => rw [hp] at hok; cases hok
  | ok r =>
    obtain ⟨acts', e1'⟩ := r
    rw [hp] at hok
    have h2 : (acts', reclaim e1') = (acts, e1, rcl) := by injection hok
    rw [Prod.mk.injEq] at h2
    obtain ⟨h3, h4⟩ := h2
    subst h3
    obtain ⟨hsig, he1, acts0, lp, hm, hacts⟩ := publish_ok_elim hp
    subst hacts
    have hshape := pubLoop_acts_shape hm
    have hni : PubAction.incRef ∉ acts0 := by
      intro hmem
      rcases hshape _ hmem with ⟨c, hc⟩ | ⟨r, hr⟩
      · cases hc
      · cases hr
    have hng : PubAction.gc ∉ acts0 := by
      intro hmem
      rcases hshape _ hmem with ⟨c, hc⟩ | ⟨r, hr⟩
      · cases hc
      · cases hr
    refine ⟨?_, ?_, ?_⟩
    · simp [List.count_append, if_pos hpool, List.count_eq_zero.mpr hni,
            List.count_cons, List.count_eq_zero]
    · simp [List.count_append, if_pos hpool, List.count_eq_zero.mpr hng,
            List.count_cons, List.count_eq_zero]
    · intro hns hctr
      have hmem : reg.getD e.sig [] ∈ reg := by
        apply getD_mem
        rw [hwf.1]
        exact hsig
      have hprios : subscrPrios cfg (reg.getD e.sig []) = [] := by
        rw [List.eq_nil_iff_forall_not_mem]
        intro q hq
        have := (subscrPrios_mem (hwf.2 _ hmem).1 (hwf.2 _ hmem).2).mp hq
        rw [hns q] at this
        exact Bool.false_ne_true this.2
      rw [hprios] at hm
      simp only [pubLoop] at hm
      cases hm
      have h5 : reclaim e1' = (⟨e.sig, e.poolId, 0⟩, true) := by
        rw [he1, if_pos hpool]
        simp [reclaim, hpool, hctr]
      rw [h5, Prod.mk.injEq] at h4
      obtain ⟨h6, h7⟩ := h4
      refine ⟨?_, ?_, ?_⟩
      · simp [List.countP_append, if_pos hpool, List.countP_cons]
      · rw [← h6]
      · rw [← h7]

theorem C2_witness :
    ([PubAction.incRef, PubAction.gc] : List PubAction).count PubAction.incRef = 1 ∧
    ([PubAction.incRef, PubAction.gc] : List PubAction).count PubAction.gc = 1 ∧
    (([PubAction.incRef, PubAction.gc] : List PubAction).countP
        (fun a => match a with | PubAction.post _ => true | _ => false) = 0 ∧
     (⟨4, 1, 0⟩ : QEvt).refCtr = 0 ∧ true = true) := by
  have hwf : RegWF cfg0 (QF_psInit cfg0) := by decide
  have hok : publishRun cfg0 dir0 (QF_psInit cfg0) ⟨4, 1, 0⟩ =
      .ok ([PubAction.incRef, PubAction.gc], ⟨4, 1, 0⟩, true) := by rfl
  have h := C2_ref_count_conservation hwf (by decide) hok
  exact ⟨h.1, h.2.1, h.2.2 (fun q => testBitP_replicate_zero 1 q) rfl⟩

/-! ### unsubscribeAll loop lemmas -/

lemma unsubAllClear_length (p : Nat) (reg : Registry) (sig : Nat) :
    (unsubAllClear p reg sig).length = reg.length := by
  simp only [unsubAllClear]
  by_cases h : (reg.getD sig []).getD (QF_div8Lkup p) 0 &&& QF_pwr2Lkup p ≠ 0
  · rw [if_pos h, List.length_set]
  · rw [if_neg h]

lemma foldl_clear_length (p : Nat) :
    ∀ (L : List Nat) (reg : Registry),
      (L.foldl (unsubAllClear p) reg).length = reg.length := by
  intro L
  induction L with
  | nil => intro reg; rfl
  | cons a L ih =>
    intro reg
    rw [List.foldl_cons, ih, unsubAllClear_length]

lemma unsubAllClear_getD_ne {p : Nat} {reg : Registry} {sig s : Nat} (h : s ≠ sig) :
    (unsubAllClear p reg sig).getD s [] = reg.getD s [] := by
  simp only [unsubAllClear]
  by_cases hb : (reg.getD sig []).getD (QF_div8Lkup p) 0 &&& QF_pwr2Lkup p ≠ 0
  · rw [if_pos hb]
    exact getD_set_ne (fun hh => h hh.symm)
  · rw [if_neg hb]

lemma foldl_clear_getD_notmem {p s : Nat} :
    ∀ {L : List Nat}, s ∉ L → ∀ reg : Registry,
      (L.foldl (unsubAllClear p) reg).getD s [] = reg.getD s [] := by
  intro L
  induction L with
  | nil => intro _ reg; rfl
  | cons a L ih =>
    intro hs reg
    rw [List.foldl_cons, ih (fun hh => hs (List.mem_cons_of_mem a hh)),
        unsubAllClear_getD_ne (fun hh => hs (by rw [hh]; exact List.mem_cons_self a L))]

lemma unsubAllClear_testBit_ne {p q : Nat} (h0p : 0 < p) (h0q : 0 < q) (hqp : q ≠ p)
    (reg : Registry) (sig s : Nat) :
    testBitP ((unsubAllClear p reg sig).getD s []) q = testBitP (reg.getD s []) q := by
  by_cases hs : s = sig
  · subst hs
    simp only [unsubAllClear]
    by_cases hb : (reg.getD s []).getD (QF_div8Lkup p) 0 &&& QF_pwr2Lkup p ≠ 0
    · rw [if_pos hb]
      by_cases hlen : s < reg.length
      · rw [getD_set_self (by simpa using hlen)]
        exact testBitP_set_and_ne h0p h0q hqp
      · rw [List.set_eq_of_length_le (by simpa using Nat.le_of_not_lt hlen)]
    · rw [if_neg hb]
  · rw [unsubAllClear_getD_ne hs]

lemma unsubAllClear_testBit_self {p : Nat} (reg : Registry) (sig : Nat)
    (hlen : sig < reg.length) :
    testBitP ((unsubAllClear p reg sig).getD sig []) p = false := by
  simp only [unsubAllClear]
  by_cases hb : (reg.getD sig []).getD (QF_div8Lkup p) 0 &&& QF_pwr2Lkup p ≠ 0
  · rw [if_pos hb, getD_set_self (by simpa using hlen)]
    exact testBitP_set_and_self
  · rw [if_neg hb]
    rw [Decidable.not_not] at hb
    unfold testBitP
    by_contra ht
    rw [Bool.not_eq_false] at ht
    apply absurd hb
    have := and_two_pow_ne_zero.mpr ht
    unfold QF_pwr2Lkup
    exact this

lemma foldl_clear_testBit_ne {p q : Nat} (h0p : 0 < p) (h0q : 0 < q) (hqp : q ≠ p) :
    ∀ (L : List Nat) (reg : Registry) (s : Nat),
      testBitP ((L.foldl (unsubAllClear p) reg).getD s []) q =
        testBitP (reg.getD s []) q := by
  intro L
  induction L with
  | nil => intro reg s; rfl
  | cons a L ih =>
    intro reg s
    rw [List.foldl_cons, ih, unsubAllClear_testBit_ne h0p h0q hqp]

lemma foldl_clear_testBit_mem {p : Nat} :
    ∀ (L : List Nat) (reg : Registry) (s : Nat), s ∈ L → s < reg.length →
      testBitP ((L.foldl (unsubAllClear p) reg).getD s []) p = false := by
  intro L
  induction L with
  | nil => intro reg s hs; cases hs
  | cons a L ih =>
    intro reg s hs hlen
    rw [List.foldl_cons]
    rcases List.mem_cons.mp hs with rfl | hmem
    · by_cases hsL : s ∈ L
      · exact ih _ _ hsL (by rw [unsubAllClear_length]; exact hlen)
      · rw [foldl_clear_getD_notmem hsL]
        exact unsubAllClear_testBit_self _ _ hlen
    · exact ih _ _ hmem (by rw [unsubAllClear_length]; exact hlen)

/-- C8: after `unsubscribeAll(A)` the bit of A's priority is clear in the
registry entry of every in-range signal, whatever was subscribed before. -/
theorem C8_unsubscribeAll_complete {cfg : QPConfig} {dir : Directory}
    {reg reg' : Registry} {me p : Nat} (hwf : RegWF cfg reg)
    (h : QActive_unsubscribeAll cfg dir reg me p = .ok reg') :
    ∀ sig, cfg.userSignalBase ≤ sig → sig < cfg.maxSignal →
      testBitP (reg'.getD sig []) p = false := by
  unfold QActive_unsubscribeAll at h
  by_cases hc : 0 < p ∧ p ≤ cfg.maxActive ∧ dir p = some me
  · rw [if_pos hc] at h
    cases h
    intro sig h1 h2
    apply foldl_clear_testBit_mem
    · rw [List.mem_range']
      exact ⟨sig - cfg.userSignalBase, by omega, by omega⟩
    · rw [hwf.1]
      exact h2
  · rw [if_neg hc] at h
    cases h

theorem C8_witness :
    testBitP (([[0], [0], [0], [0], [251], [0], [1], [0]] : Registry).getD 6 []) 3
      = false := by
  have hwf : RegWF cfg0 ([[0], [0], [0], [0], [255], [0], [5], [0]] : Registry) := by
    decide
  have h : QActive_unsubscribeAll cfg0 dir0
      ([[0], [0], [0], [0], [255], [0], [5], [0]] : Registry) 3 3 =
      .ok ([[0], [0], [0], [0], [251], [0], [1], [0]] : Registry) := by rfl
  exact C8_unsubscribeAll_complete hwf h 6 (by decide) (by decide)

/-- C10: `unsubscribeAll(A)` touches only A's own priority bit in the
in-range signal entries — the registry keeps its size, entries of signals
outside `[userSignalBase, maxSignal)` are untouched, and the bit of every
other priority is unchanged in every entry. -/
theorem C10_unsubscribeAll_frame {cfg : QPConfig} {dir : Directory}
    {reg reg' : Registry} {me p : Nat}
    (h : QActive_unsubscribeAll cfg dir reg me p = .ok reg') :
    reg'.length = reg.length ∧
    (∀ sig, sig < cfg.userSignalBase ∨ cfg.maxSignal ≤ sig →
       reg'.getD sig [] = reg.getD sig []) ∧
    (∀ sig q, 0 < q → q ≠ p →
       testBitP (reg'.getD sig []) q = testBitP (reg.getD sig []) q) := by
  unfold QActive_unsubscribeAll at h
  by_cases hc : 0 < p ∧ p ≤ cfg.maxActive ∧ dir p = some me
  · rw [if_pos hc] at h
    cases h
    refine ⟨foldl_clear_length p _ reg, ?_, ?_⟩
    · intro sig hs
      apply foldl_clear_getD_notmem
      rw [List.mem_range']
      rintro ⟨i, hi, heq⟩
      omega
    · intro sig q h0q hqp
      exact foldl_clear_testBit_ne hc.1 h0q hqp _ reg sig
  · rw [if_neg hc] at h
    cases h

theorem C10_witness :
    ([[0], [0], [0], [0], [251], [0], [1], [0]] : Registry).length =
      ([[0], [0], [0], [0], [255], [0], [5], [0]] : Registry).length ∧
    ([[0], [0], [0], [0], [251], [0], [1], [0]] : Registry).getD 2 [] =
      ([[0], [0], [0], [0], [255], [0], [5], [0]] : Registry).getD 2 [] ∧
    testBitP (([[0], [0], [0], [0], [251], [0], [1], [0]] : Registry).getD 4 []) 1 =
      testBitP (([[0], [0], [0], [0], [255], [0], [5], [0]] : Registry).getD 4 []) 1 := by
  have h : QActive_unsubscribeAll cfg0 dir0
      ([[0], [0], [0], [0], [255], [0], [5], [0]] : Registry) 3 3 =
      .ok ([[0], [0], [0], [0], [251], [0], [1], [0]] : Registry) := by rfl
  have hf := C10_unsubscribeAll_frame h
  exact ⟨hf.1, hf.2.1 2 (Or.inl (by decide)), hf.2.2 4 1 (by decide) (by decide)⟩

/-! ### Registry invariant (bits above maxActive) -/

lemma psInit_highClear (cfg : QPConfig) : highClear cfg (QF_psInit cfg) := by
  intro s q hq
  unfold QF_psInit
  by_cases hs : s < cfg.maxSignal
  · have hlt : s < (List.replicate cfg.maxSignal
        (List.replicate (subscrListSize cfg) (0 : Nat))).length := by simpa using hs
    have he : (List.replicate cfg.maxSignal
        (List.replicate (subscrListSize cfg) (0 : Nat))).getD s [] =
        List.replicate (subscrListSize cfg) 0 := by
      have h2 : (List.replicate cfg.maxSignal
          (List.replicate (subscrListSize cfg) (0 : Nat))).getD s [] =
          (List.replicate cfg.maxSignal
            (List.replicate (subscrListSize cfg) (0 : Nat)))[s] := by
        simp [List.getD_eq_getElem?_getD, List.getElem?_eq_getElem hlt]
      rw [h2, List.getElem_replicate]
    rw [he]
    exact testBitP_replicate_zero _ _
  · rw [getD_ge (by simpa using Nat.le_of_not_lt hs)]
    exact testBitP_short (Nat.zero_le _)

lemma subscribe_preserves_highClear {cfg : QPConfig} {dir : Directory}
    {reg reg' : Registry} {me p sig : Nat} (hc : highClear cfg reg)
    (h : QActive_subscribe cfg dir reg me p sig = .ok reg') : highClear cfg reg' := by
  simp only [QActive_subscribe] at h
  by_cases hg : cfg.userSignalBase ≤ sig ∧ sig < cfg.maxSignal ∧
      0 < p ∧ p ≤ cfg.maxActive ∧ dir p = some me
  · rw [if_pos hg] at h
    cases h
    intro s q hq
    by_cases hs : s = sig
    · subst hs
      by_cases hlen : s < reg.length
      · rw [getD_set_self (by simpa using hlen),
            testBitP_set_or_ne hg.2.2.1 (by omega) (by omega)]
        exact hc s q hq
      · rw [List.set_eq_of_length_le (by simpa using Nat.le_of_not_lt hlen)]
        exact hc s q hq
    · rw [getD_set_ne (fun hh => hs hh.symm)]
      exact hc s q hq
  · rw [if_neg hg] at h
    cases h

lemma unsubscribe_preserves_highClear {cfg : QPConfig} {dir : Directory}
    {reg reg' : Registry} {me p sig : Nat} (hc : highClear cfg reg)
    (h : QActive_unsubscribe cfg dir reg me p sig = .ok reg') : highClear cfg reg' := by
  simp only [QActive_unsubscribe] at h
  by_cases hg : cfg.userSignalBase ≤ sig ∧ sig < cfg.maxSignal ∧
      0 < p ∧ p ≤ cfg.maxActive ∧ dir p = some me
  · rw [if_pos hg] at h
    cases h
    intro s q hq
    by_cases hs : s = sig
    · subst hs
      by_cases hlen : s < reg.length
      · rw [getD_set_self (by simpa using hlen),
            testBitP_set_and_ne hg.2.2.1 (by omega) (by omega)]
        exact hc s q hq
      · rw [List.set_eq_of_length_le (by simpa using Nat.le_of_not_lt hlen)]
        exact hc s q hq
    · rw [getD_set_ne (fun hh => hs hh.symm)]
      exact hc s q hq
  · rw [if_neg hg] at h
    cases h

lemma unsubscribeAll_preserves_highClear {cfg : QPConfig} {dir : Directory}
    {reg reg' : Registry} {me p : Nat} (hc : highClear cfg reg)
    (h : QActive_unsubscribeAll cfg dir reg me p = .ok reg') : highClear cfg reg' := by
  unfold QActive_unsubscribeAll at h
  by_cases hg : 0 < p ∧ p ≤ cfg.maxActive ∧ dir p = some me
  · rw [if_pos hg] at h
    cases h
    intro s q hq
    rw [foldl_clear_testBit_ne hg.1 (by omega) (by omega) _ reg s]
    exact hc s q hq
  · rw [if_neg hg] at h
    cases h

/-- C9: from the zeroed initial registry, every state reachable by
precondition-respecting subscribe / unsubscribe / unsubscribeAll calls has
all bits above `maxActive` clear, and each of the three mutators preserves
that invariant. -/
theorem C9_registry_invariant (cfg : QPConfig) (dir : Directory) :
    (∀ reg, Reachable cfg dir reg → highClear cfg reg) ∧
    (∀ reg me p sig reg', highClear cfg reg →
        QActive_subscribe cfg dir reg me p sig = .ok reg' → highClear cfg reg') ∧
    (∀ reg me p sig reg', highClear cfg reg →
        QActive_unsubscribe cfg dir reg me p sig = .ok reg' → highClear cfg reg') ∧
    (∀ reg me p reg', highClear cfg reg →
        QActive_unsubscribeAll cfg dir reg me p = .ok reg' → highClear cfg reg') := by
  refine ⟨?_,
    fun reg me p sig reg' hc h => subscribe_preserves_highClear hc h,
    fun reg me p sig reg' hc h => unsubscribe_preserves_highClear hc h,
    fun reg me p reg' hc h => unsubscribeAll_preserves_highClear hc h⟩
  intro reg hr
  induction hr with
  | init => exact psInit_highClear cfg
  | subscribe hr hs ih => exact subscribe_preserves_highClear ih hs
  | unsubscribe hr hs ih => exact unsubscribe_preserves_highClear ih hs
  | unsubscribeAll hr hs ih => exact unsubscribeAll_preserves_highClear ih hs

theorem C9_witness : highClear cfg0 (QF_psInit cfg0) :=
  (C9_registry_invariant cfg0 dir0).1 (QF_psInit cfg0) Reachable.init

/-! ### Highest-priority-first delivery and lock discipline -/

/-- C1: within one publish, the enqueue to a higher-priority subscriber
precedes the enqueue to any lower-priority subscriber of the same signal. -/
theorem C1_publish_descending {cfg : QPConfig} {dir : Directory} {reg : Registry}
    {e : QEvt} {acts : List PubAction} {e1 : QEvt} {p q : Nat}
    (hwf : RegWF cfg reg)
    (hok : QF_publish_ cfg dir reg e = .ok (acts, e1))
    (hq0 : 0 < q) (hqp : q < p)
    (hp : testBitP (reg.getD e.sig []) p = true)
    (hq : testBitP (reg.getD e.sig []) q = true)
    (hcfg : cfg.WF) :
    List.Sublist [PubAction.post p, PubAction.post q] acts := by
  obtain ⟨hsig, he1, acts0, lp, hm, hacts⟩ := publish_ok_elim hok
  subst hacts
  have hmem : reg.getD e.sig [] ∈ reg := getD_mem (by rw [hwf.1]; exact hsig)
  have hlen := (hwf.2 _ hmem).1
  have hb := (hwf.2 _ hmem).2
  have hpm : p ∈ subscrPrios cfg (reg.getD e.sig []) :=
    (subscrPrios_mem hlen hb).mpr ⟨by omega, hp⟩
  have hqm : q ∈ subscrPrios cfg (reg.getD e.sig []) :=
    (subscrPrios_mem hlen hb).mpr ⟨hq0, hq⟩
  have hpair := pair_sublist (@subscrPrios_pairwise cfg _ hb) hpm hqm hqp
  cases hpl : subscrPrios cfg (reg.getD e.sig []) with
  | nil =>
    rw [hpl] at hpm
    cases hpm
  | cons p0 rest =>
    rw [hpl] at hm hpair
    have hp0m : p0 ∈ subscrPrios cfg (reg.getD e.sig []) := by
      rw [hpl]
      exact List.mem_cons_self p0 rest
    have hp0b : 1 ≤ p0 ∧ p0 ≤ 8 * subscrListSize cfg :=
      subscrPriosAux_bounds hb p0 hp0m
    have hp0ne : p0 ≠ 255 := by
      have h64 := hcfg.2
      unfold subscrListSize at hp0b
      omega
    obtain ⟨ha0, hlp⟩ := pubLoop_cons hp0ne hm
    subst ha0
    have hsub1 : List.Sublist [PubAction.post p, PubAction.post q]
        (PubAction.schedLock p0 :: (p0 :: rest).map PubAction.post) :=
      List.Sublist.cons _ (hpair.map PubAction.post)
    refine hsub1.trans ?_
    refine List.Sublist.trans ?_ (List.sublist_append_left _ [PubAction.gc])
    refine List.Sublist.trans ?_ (List.sublist_append_left _ _)
    exact List.sublist_append_right _ _

theorem C1_witness :
    List.Sublist [PubAction.post 3, PubAction.post 1]
      [PubAction.schedLock 3, PubAction.post 3, PubAction.post 1,
       PubAction.schedUnlock, PubAction.gc] := by
  have hwf : RegWF cfg0 ([[0], [0], [0], [0], [5], [0], [0], [0]] : Registry) := by
    decide
  have hok : QF_publish_ cfg0 dir0
      ([[0], [0], [0], [0], [5], [0], [0], [0]] : Registry) ⟨4, 0, 0⟩ =
      .ok ([PubAction.schedLock 3, PubAction.post 3, PubAction.post 1,
            PubAction.schedUnlock, PubAction.gc], ⟨4, 0, 0⟩) := by rfl
  exact C1_publish_descending hwf hok (by decide) (by decide) (by rfl) (by rfl)
    (by decide)

/-- C4: one publish raises the scheduler lock at most once — exactly when
there is at least one subscriber, at the first (numerically highest)
extracted priority, before any enqueue — and restores it exactly when it
was raised; with no subscribers the lock is never touched. -/
theorem C4_sched_lock_discipline {cfg : QPConfig} {dir : Directory} {reg : Registry}
    {e : QEvt} {acts : List PubAction} {e1 : QEvt}
    (hcfg : cfg.WF) (hwf : RegWF cfg reg)
    (hinv : ∀ r, cfg.maxActive < r → testBitP (reg.getD e.sig []) r = false)
    (hok : QF_publish_ cfg dir reg e = .ok (acts, e1)) :
    (subscrPrios cfg (reg.getD e.sig []) = [] →
       (∀ c, PubAction.schedLock c ∉ acts) ∧ PubAction.schedUnlock ∉ acts) ∧
    (∀ p rest, subscrPrios cfg (reg.getD e.sig []) = p :: rest →
       (∀ x ∈ rest, x < p) ∧
       acts = (if e.poolId ≠ 0 then [PubAction.incRef] else []) ++
              (PubAction.schedLock p :: (p :: rest).map PubAction.post) ++
              [PubAction.schedUnlock, PubAction.gc]) := by
  obtain ⟨hsig, he1, acts0, lp, hm, hacts⟩ := publish_ok_elim hok
  subst hacts
  have hmem : reg.getD e.sig [] ∈ reg := getD_mem (by rw [hwf.1]; exact hsig)
  have hlen := (hwf.2 _ hmem).1
  have hb := (hwf.2 _ hmem).2
  constructor
  · intro hnil
    rw [hnil] at hm
    simp only [pubLoop] at hm
    cases hm
    have hngt : ¬ ((255 : Nat) ≤ cfg.maxActive) := by
      have := hcfg.2
      omega
    rw [if_neg hngt]
    refine ⟨fun c hc => ?_, fun hc => ?_⟩
    · by_cases hp0 : e.poolId ≠ 0 <;> simp [hp0] at hc
    · by_cases hp0 : e.poolId ≠ 0 <;> simp [hp0] at hc
  · intro p rest hcons
    rw [hcons] at hm
    have hpmem : p ∈ subscrPrios cfg (reg.getD e.sig []) := by
      rw [hcons]
      exact List.mem_cons_self p rest
    have hple : p ≤ cfg.maxActive := by
      by_contra hgt
      have hclear := hinv p (by omega)
      have := ((subscrPrios_mem hlen hb).mp hpmem).2
      rw [hclear] at this
      exact Bool.false_ne_true this
    have hp255 : p ≠ 255 := by
      have := hcfg.2
      omega
    obtain ⟨ha0, hlp⟩ := pubLoop_cons hp255 hm
    subst ha0
    subst hlp
    rw [if_pos hple]
    constructor
    · have hpw := @subscrPrios_pairwise cfg _ hb
      rw [hcons] at hpw
      exact (List.pairwise_cons.mp hpw).1
    · simp

theorem C4_witness :
    (∀ x ∈ ([1] : List Nat), x < 3) ∧
    ([PubAction.schedLock 3, PubAction.post 3, PubAction.post 1,
      PubAction.schedUnlock, PubAction.gc] : List PubAction) =
      (if (⟨4, 0, 0⟩ : QEvt).poolId ≠ 0 then [PubAction.incRef] else []) ++
      (PubAction.schedLock 3 :: ([3, 1].map PubAction.post)) ++
      [PubAction.schedUnlock, PubAction.gc] := by
  have hcfg : cfg0.WF := by decide
  have hwf : RegWF cfg0 ([[0], [0], [0], [0], [5], [0], [0], [0]] : Registry) := by
    decide
  have hinv : ∀ r, cfg0.maxActive < r →
      testBitP (([[0], [0], [0], [0], [5], [0], [0], [0]] : Registry).getD 4 []) r
        = false := by
    intro r hr
    have hr8 : (8 : Nat) < r := hr
    apply testBitP_short
    show (1 : Nat) ≤ QF_div8Lkup r
    simp only [QF_div8Lkup]
    omega
  have hok : QF_publish_ cfg0 dir0
      ([[0], [0], [0], [0], [5], [0], [0], [0]] : Registry) ⟨4, 0, 0⟩ =
      .ok ([PubAction.schedLock 3, PubAction.post 3, PubAction.post 1,
            PubAction.schedUnlock, PubAction.gc], ⟨4, 0, 0⟩) := by rfl
  exact (C4_sched_lock_discipline hcfg hwf hinv hok).2 3 [1] (by rfl)

end QP
